import Mathlib

set_option maxRecDepth 10000

/-!
Shallow embedding of the Simple Notes App (`src/notes_frontend/src/main.js`).

The app is a single-page notes application: an array of note records kept in
module state, persisted as JSON under two localStorage keys, with handlers
for add / select / update / delete / search.  The embedding below translates
the data model, the persistence adapter, the filter/sort engine and the
action handlers into executable Lean definitions, and proves the claimed
properties about them.

External collaborators (the browser's `JSON.parse` / `JSON.stringify`) are
modelled at the level of an inductive JSON value type `JVal`: the functions
that call them take the parse / stringify functions as explicit parameters.
A concrete printer (`jToString`) and parser (`jParse`) for that value type
are provided so that every parametric theorem can be instantiated on
concrete inputs.
-/

namespace NotesApp

/-- A note record, as described by the `@typedef Note` in `main.js`:
string `id`, `title`, `content`, numeric `createdAt` / `updatedAt`
(milliseconds since epoch, hence `Nat`). -/
structure Note where
  id : String
  title : String
  content : String
  createdAt : Nat
  updatedAt : Nat
deriving DecidableEq, Repr

/-- JSON values, the model of what `JSON.parse` produces and
`JSON.stringify` consumes. -/
inductive JVal where
  | null
  | bool (b : Bool)
  | num (n : Int)
  | str (s : String)
  | arr (elems : List JVal)
  | obj (fields : List (String × JVal))

/-- The browser's string-keyed, string-valued localStorage, modelled as an
association list. -/
abbrev Store := List (String × String)

def STORAGE_KEY : String := "simple-notes-app__notes"

def SELECTED_KEY : String := "simple-notes-app__selectedId"

/-- Model of `localStorage.getItem`. -/
def getItem (store : Store) (k : String) : Option String :=
  (store.find? (fun kv => kv.1 == k)).map (fun kv => kv.2)

/-- Model of `localStorage.setItem`: the new binding shadows any earlier
binding of the same key. -/
def setItem (store : Store) (k v : String) : Store :=
  (k, v) :: store.filter (fun kv => kv.1 != k)

/-- Embedding of `loadNotes()`:
reads the raw string under `STORAGE_KEY`; returns `[]` when the key is
absent, when the raw value is falsy (the empty string), when parsing fails
(`JSON.parse` throwing is modelled by the parser returning `none`), or when
the parsed value is not an array; otherwise returns the parsed array's
elements.  `parse` is the model of `JSON.parse`. -/
def loadNotes (parse : String → Option JVal) (store : Store) : List JVal :=
  match getItem store STORAGE_KEY with
  | none => []
  | some raw =>
    if raw = "" then []
    else
      match parse raw with
      | none => []
      | some (JVal.arr elems) => elems
      | some _ => []

/-- JSON encoding of a single note, field order as laid out in `createNote`. -/
def encodeNote (n : Note) : JVal :=
  JVal.obj [("id", JVal.str n.id), ("title", JVal.str n.title),
            ("content", JVal.str n.content),
            ("createdAt", JVal.num n.createdAt),
            ("updatedAt", JVal.num n.updatedAt)]

/-- JSON encoding of a notes collection. -/
def encodeNotes (ns : List Note) : JVal :=
  JVal.arr (ns.map encodeNote)

/-- Embedding of `saveNotes(notes)`: writes the serialized collection under
`STORAGE_KEY`.  `stringify` is the model of `JSON.stringify`. -/
def saveNotes (stringify : JVal → String) (store : Store) (ns : List Note) : Store :=
  setItem store STORAGE_KEY (stringify (encodeNotes ns))

/-- Embedding of `loadSelectedId()`: `getItem(...) || null`, so an absent key
or the empty string both yield "no selection". -/
def loadSelectedId (store : Store) : Option String :=
  match getItem store SELECTED_KEY with
  | none => none
  | some s => if s = "" then none else some s

/-- Embedding of `saveSelectedId(id)`: stores `id || ''`. -/
def saveSelectedId (store : Store) (id : Option String) : Store :=
  setItem store SELECTED_KEY (id.getD "")

/-- Field lookup in a JSON object, first binding wins. -/
def jField (fields : List (String × JVal)) (k : String) : Option JVal :=
  ((fields.find? (fun kv => kv.1 == k)).map (fun kv => kv.2))

/-- Structural reading of a parsed JSON value back into a `Note`; this is how
the app's code treats the plain objects produced by `JSON.parse`. -/
def decodeNote (v : JVal) : Option Note :=
  match v with
  | JVal.obj fields =>
    match jField fields "id", jField fields "title", jField fields "content",
          jField fields "createdAt", jField fields "updatedAt" with
    | some (JVal.str i), some (JVal.str t), some (JVal.str c),
      some (JVal.num ca), some (JVal.num ua) =>
      if 0 ≤ ca ∧ 0 ≤ ua then some ⟨i, t, c, ca.toNat, ua.toNat⟩ else none
    | _, _, _, _, _ => none
  | _ => none

/-! ### A concrete JSON printer and parser

`jToString` / `jParse` are concrete realizations of `JSON.stringify` /
`JSON.parse` for the `JVal` fragment the app uses (no whitespace, the same
string escapes `JSON.stringify` emits, integer numbers).  They let every
theorem that is parametric in the platform's stringify/parse pair be
instantiated on concrete inputs. -/

/-- Lower-case hex digit. -/
def hexDigit (n : Nat) : Char :=
  if n < 10 then Char.ofNat (48 + n) else Char.ofNat (87 + n)

/-- Escape one character the way `JSON.stringify` does. -/
def escChar (c : Char) : String :=
  if c = '"' then "\\\""
  else if c = '\\' then "\\\\"
  else if c = '\n' then "\\n"
  else if c = '\r' then "\\r"
  else if c = '\t' then "\\t"
  else if c.toNat < 32 then
    "\\u00" ++ String.mk [hexDigit (c.toNat / 16), hexDigit (c.toNat % 16)]
  else String.singleton c

/-- A JSON string literal with escapes. -/
def strLit (s : String) : String :=
  "\"" ++ String.join (s.data.map escChar) ++ "\""

mutual

/-- Serialize a JSON value, in `JSON.stringify`'s compact format. -/
def jToString : JVal → String
  | JVal.null => "null"
  | JVal.bool true => "true"
  | JVal.bool false => "false"
  | JVal.num n => toString n
  | JVal.str s => strLit s
  | JVal.arr elems => "[" ++ jArrToString elems ++ "]"
  | JVal.obj fields => "\x7b" ++ jObjToString fields ++ "\x7d"

/-- Serialize array elements, comma separated. -/
def jArrToString : List JVal → String
  | [] => ""
  | [v] => jToString v
  | v :: vs => jToString v ++ "," ++ jArrToString vs

/-- Serialize object fields, comma separated. -/
def jObjToString : List (String × JVal) → String
  | [] => ""
  | [(k, v)] => strLit k ++ ":" ++ jToString v
  | (k, v) :: fs => strLit k ++ ":" ++ jToString v ++ "," ++ jObjToString fs

end

/-- Value of a decimal digit character, if it is one. -/
def digitVal (c : Char) : Option Nat :=
  if 48 ≤ c.toNat ∧ c.toNat ≤ 57 then some (c.toNat - 48) else none

/-- Consume a run of decimal digits, extending the accumulator. -/
def takeDigits : List Char → Nat → (Nat × List Char)
  | [], acc => (acc, [])
  | c :: cs, acc =>
    match digitVal c with
    | some d => takeDigits cs (acc * 10 + d)
    | none => (acc, c :: cs)

/-- Parse an integer JSON number. -/
def parseNum (cs : List Char) : Option (JVal × List Char) :=
  match cs with
  | '-' :: c :: rest =>
    match digitVal c with
    | some d =>
      match takeDigits rest d with
      | (v, r) => some (JVal.num (-(v : Int)), r)
    | none => none
  | c :: rest =>
    match digitVal c with
    | some d =>
      match takeDigits rest d with
      | (v, r) => some (JVal.num (v : Int), r)
    | none => none
  | [] => none

/-- Decode one escape character of a JSON string literal. -/
def unescChar (c : Char) : Option Char :=
  if c = 'n' then some '\n'
  else if c = 't' then some '\t'
  else if c = 'r' then some '\r'
  else if c = '"' then some '"'
  else if c = '\\' then some '\\'
  else if c = '/' then some '/'
  else none

/-- Parse the body of a string literal (after the opening quote). -/
def parseStrBody : List Char → List Char → Option (String × List Char)
  | [], _ => none
  | c :: rest, acc =>
    if c = '"' then some (String.mk acc.reverse, rest)
    else if c = '\\' then
      match rest with
      | [] => none
      | e :: rest2 =>
        match unescChar e with
        | some d => parseStrBody rest2 (d :: acc)
        | none => none
    else parseStrBody rest (c :: acc)

mutual

/-- Fuel-based recursive-descent parser for a JSON value. -/
def jParseVal : Nat → List Char → Option (JVal × List Char)
  | 0, _ => none
  | _ + 1, [] => none
  | fuel + 1, c :: rest =>
    if c = 'n' then
      match rest with
      | 'u' :: 'l' :: 'l' :: r => some (JVal.null, r)
      | _ => none
    else if c = 't' then
      match rest with
      | 'r' :: 'u' :: 'e' :: r => some (JVal.bool true, r)
      | _ => none
    else if c = 'f' then
      match rest with
      | 'a' :: 'l' :: 's' :: 'e' :: r => some (JVal.bool false, r)
      | _ => none
    else if c = '"' then
      match parseStrBody rest [] with
      | some (s, r) => some (JVal.str s, r)
      | none => none
    else if c = '[' then
      match rest with
      | ']' :: r => some (JVal.arr [], r)
      | _ =>
        match jParseItems fuel rest with
        | some (vs, r) => some (JVal.arr vs, r)
        | none => none
    else if c = '\x7b' then
      match rest with
      | '\x7d' :: r => some (JVal.obj [], r)
      | _ =>
        match jParseFields fuel rest with
        | some (fs, r) => some (JVal.obj fs, r)
        | none => none
    else parseNum (c :: rest)

/-- Parse the elements of a non-empty array (after the opening bracket). -/
def jParseItems : Nat → List Char → Option (List JVal × List Char)
  | 0, _ => none
  | fuel + 1, cs =>
    match jParseVal fuel cs with
    | none => none
    | some (v, r) =>
      match r with
      | ',' :: r2 =>
        match jParseItems fuel r2 with
        | some (vs, r3) => some (v :: vs, r3)
        | none => none
      | ']' :: r2 => some ([v], r2)
      | _ => none

/-- Parse the fields of a non-empty object (after the opening brace). -/
def jParseFields : Nat → List Char → Option (List (String × JVal) × List Char)
  | 0, _ => none
  | fuel + 1, cs =>
    match cs with
    | '"' :: rest =>
      match parseStrBody rest [] with
      | none => none
      | some (k, r) =>
        match r with
        | ':' :: r2 =>
          match jParseVal fuel r2 with
          | none => none
          | some (v, r3) =>
            match r3 with
            | ',' :: r4 =>
              match jParseFields fuel r4 with
              | some (fs, r5) => some ((k, v) :: fs, r5)
              | none => none
            | '\x7d' :: r4 => some ([(k, v)], r4)
            | _ => none
        | _ => none
    | _ => none

end

/-- Concrete model of `JSON.parse`: parse the whole string, failing (like a
thrown exception) on trailing input or malformed text. -/
def jParse (s : String) : Option JVal :=
  match jParseVal (s.data.length + 2) s.data with
  | some (v, []) => some v
  | _ => none

/-! ### Filter/sort engine -/

/-- The whitespace characters JS `String.prototype.trim` strips (the ASCII
ones the app can meet). -/
def isWs (c : Char) : Bool := c = ' ' || c = '\t' || c = '\n' || c = '\r'

/-- Drop leading whitespace. -/
def dropLeadWs : List Char → List Char
  | [] => []
  | c :: cs => if isWs c then dropLeadWs cs else c :: cs

/-- Model of JS `String.prototype.trim`: strip whitespace from both ends. -/
def sTrim (s : String) : String :=
  String.mk ((dropLeadWs ((dropLeadWs s.data).reverse)).reverse)

/-- Model of JS `String.prototype.toLowerCase`. -/
def sToLower (s : String) : String :=
  String.mk (s.data.map Char.toLower)

/-- Does `p` occur as a prefix of `s`?  (Head test of the substring search.) -/
def headMatch : List Char → List Char → Bool
  | [], _ => true
  | _ :: _, [] => false
  | p :: ps, c :: cs => p == c && headMatch ps cs

/-- Model of JS `String.prototype.includes`: does `pat` occur as a contiguous
substring of `s`? -/
def containsSub : List Char → List Char → Bool
  | [], pat => pat.isEmpty
  | c :: rest, pat => headMatch pat (c :: rest) || containsSub rest pat

/-- The sort comparator of `getFilteredNotes`: the JS comparator
`(a, b) => b.updatedAt - a.updatedAt` orders `a` no later than `b` exactly
when `b.updatedAt ≤ a.updatedAt`. -/
def cmpNotes (a b : Note) : Bool := b.updatedAt ≤ a.updatedAt

/-- Stable insertion into a list sorted by `cmpNotes`: the new element `x`
goes in front of the first element it compares no-later than; elements equal
on the key keep `x` (the earlier one in the input) first. -/
def insertNote (x : Note) : List Note → List Note
  | [] => [x]
  | m :: ms => if cmpNotes x m then x :: m :: ms else m :: insertNote x ms

/-- Stable sort by `updatedAt` descending.  JS `Array.prototype.sort` is
required to be stable, and a stable sort under a consistent comparator is
unique, so this insertion sort is the model of
`[...state.notes].sort((a, b) => b.updatedAt - a.updatedAt)`. -/
def sortNotes : List Note → List Note
  | [] => []
  | x :: xs => insertNote x (sortNotes xs)

/-- The filter predicate of `getFilteredNotes`:
`(n.title && n.title.toLowerCase().includes(q)) || (n.content && n.content.toLowerCase().includes(q))`,
with JS truthiness of a string being "non-empty". -/
def noteMatches (q : String) (n : Note) : Bool :=
  (n.title != "" && containsSub (sToLower n.title).data q.data)
  || (n.content != "" && containsSub (sToLower n.content).data q.data)

/-- Embedding of `getFilteredNotes()` (the spec's `visibleNotes`): stable sort
by `updatedAt` descending, then filter by the trimmed, case-folded query when
that query is non-empty. -/
def getFilteredNotes (notes : List Note) (query : String) : List Note :=
  let q := sToLower (sTrim query)
  let sorted := sortNotes notes
  if q = "" then sorted else sorted.filter (noteMatches q)

/-! ### Application state and action handlers -/

/-- The module-level `state` object together with the external localStorage it
reads from and writes to. -/
structure AppState where
  notes : List Note
  selectedId : Option String
  query : String
  isEditingTitle : Bool
  store : Store
deriving DecidableEq, Repr

/-- A patch passed to `updateSelectedNote`: at the call sites it carries a
`title` and/or a `content` field. -/
structure Patch where
  title : Option String := none
  content : Option String := none
deriving DecidableEq, Repr

/-- Embedding of `createNote(title = 'Untitled note')`.  `Date.now()` and
`generateId()` are inputs of the model. -/
def createNote (now : Nat) (newId : String) (title : String := "Untitled note") : Note :=
  { id := newId, title := title, content := "", createdAt := now, updatedAt := now }

/-- The predicate `(n) => n.id === state.selectedId` used by the handlers;
when nothing is selected it holds of no note. -/
def isSelected (selectedId : Option String) (n : Note) : Bool :=
  some n.id == selectedId

/-- Replace the first note satisfying `p` (the `findIndex` + `splice(idx, 1, updated)`
pattern of `updateSelectedNote`). -/
def replaceFirst (p : Note → Bool) (f : Note → Note) : List Note → List Note
  | [] => []
  | n :: ns => if p n then f n :: ns else n :: replaceFirst p f ns

/-- Remove the first note satisfying `p` (the `findIndex` + `splice(idx, 1)`
pattern of `handleDelete`). -/
def removeFirst (p : Note → Bool) : List Note → List Note
  | [] => []
  | n :: ns => if p n then ns else n :: removeFirst p ns

/-- The merge `{ ...note, ...patch, updatedAt: Date.now() }`. -/
def applyPatch (n : Note) (patch : Patch) (now : Nat) : Note :=
  { n with
    title := patch.title.getD n.title
    content := patch.content.getD n.content
    updatedAt := now }

/-- Embedding of `handleAddNote()`: create, `unshift` to the front, select it,
persist both values. -/
def handleAddNote (st : AppState) (now : Nat) (newId : String) : AppState :=
  let note := createNote now newId
  let notes := note :: st.notes
  { st with
    notes := notes
    selectedId := some note.id
    store := saveSelectedId (saveNotes jToString st.store notes) (some note.id) }

/-- Embedding of `selectNote(id)`: set and persist the selection. -/
def selectNote (st : AppState) (id : String) : AppState :=
  { st with selectedId := some id, store := saveSelectedId st.store (some id) }

/-- Embedding of `updateSelectedNote(patch)`: no-op when no note matches the
selection (`findIndex` returns `-1`); otherwise merge the patch, stamp
`updatedAt := now`, splice back in place, persist the collection. -/
def updateSelectedNote (st : AppState) (patch : Patch) (now : Nat) : AppState :=
  if st.notes.any (isSelected st.selectedId) then
    let notes := replaceFirst (isSelected st.selectedId) (fun n => applyPatch n patch now) st.notes
    { st with notes := notes, store := saveNotes jToString st.store notes }
  else st

/-- Embedding of `handleDelete()`: no-op when no note matches the selection or
when the confirmation prompt is declined; otherwise remove the note, select
`notes[0]` of what remains (or clear the selection), persist both values.
The prompt's answer is an input of the model. -/
def handleDelete (st : AppState) (confirmed : Bool) : AppState :=
  if st.notes.any (isSelected st.selectedId) then
    if confirmed then
      let notes := removeFirst (isSelected st.selectedId) st.notes
      let sel : Option String :=
        match notes with
        | [] => none
        | n :: _ => some n.id
      { st with notes := notes, selectedId := sel,
                store := saveSelectedId (saveNotes jToString st.store notes) sel }
    else st
  else st

/-- Embedding of the search-input handler: `state.query = e.target.value`
followed by a re-render; nothing else changes and nothing is persisted. -/
def handleSearchInput (st : AppState) (v : String) : AppState :=
  { st with query := v }

/-- Embedding of the module initialization: build the initial state from
storage (the loaded collection is an input, see `loadNotes`), then, per the
`// Initial selection if none` block, select `notes[0]` and persist that
selection when nothing was selected and the collection is non-empty. -/
def startup (loadedNotes : List Note) (store : Store) : AppState :=
  match loadSelectedId store, loadedNotes with
  | none, n :: rest =>
    { notes := n :: rest, selectedId := some n.id, query := "",
      isEditingTitle := false, store := saveSelectedId store (some n.id) }
  | sel, _ =>
    { notes := loadedNotes, selectedId := sel, query := "",
      isEditingTitle := false, store := store }

/-- One user-interaction event, with the platform inputs (clock, generated id,
confirmation answer) made explicit. -/
inductive Action where
  | add (now : Nat) (newId : String)
  | select (id : String)
  | update (patch : Patch) (now : Nat)
  | del (confirmed : Bool)
  | search (q : String)
deriving DecidableEq, Repr

/-- Dispatch one action to its handler. -/
def step (st : AppState) : Action → AppState
  | Action.add now newId => handleAddNote st now newId
  | Action.select id => selectNote st id
  | Action.update patch now => updateSelectedNote st patch now
  | Action.del confirmed => handleDelete st confirmed
  | Action.search q => handleSearchInput st q

/-- Run a sequence of actions. -/
def run (st : AppState) : List Action → AppState
  | [] => st
  | a :: rest => run (step st a) rest

/-- The spec's data-model invariant: pairwise-distinct ids and
`createdAt ≤ updatedAt` for every note. -/
def InvNotes (notes : List Note) : Prop :=
  notes.Pairwise (fun a b => a.id ≠ b.id) ∧ ∀ n ∈ notes, n.createdAt ≤ n.updatedAt

/-- The platform assumptions under which one action runs: `generateId` hands
the add-handler an id not already in the collection, and `Date.now()` never
runs behind any note's creation time. -/
def ActionOK (st : AppState) : Action → Prop
  | Action.add _ newId => ∀ n ∈ st.notes, n.id ≠ newId
  | Action.update _ now => ∀ n ∈ st.notes, n.createdAt ≤ now
  | _ => True

/-- The platform assumptions along a whole action sequence. -/
def TraceOK (st : AppState) : List Action → Prop
  | [] => True
  | a :: rest => ActionOK st a ∧ TraceOK (step st a) rest

/-- A state reachable from an empty start: three notes added, the oldest one
then edited (which bumps its `updatedAt` past everyone else's while its array
position stays last), and finally the newest note selected again. -/
def stC2 : AppState :=
  run (startup [] [])
    [Action.add 1 "a", Action.add 2 "b", Action.add 3 "s",
     Action.select "a", Action.update { title := some "A2" } 4, Action.select "s"]

/-! ## Helper lemmas -/

theorem decodeNote_encodeNote (n : Note) : decodeNote (encodeNote n) = some n := by
  simp [decodeNote, encodeNote, jField, List.find?]

theorem getItem_setItem_same (store : Store) (k v : String) :
    getItem (setItem store k v) k = some v := by
  simp [getItem, setItem, List.find?]

theorem find?_filter_ne (store : Store) (k k' : String) (h : k' ≠ k) :
    (store.filter (fun kv => kv.1 != k)).find? (fun kv => kv.1 == k')
      = store.find? (fun kv => kv.1 == k') := by
  induction store with
  | nil => rfl
  | cons kv rest ih =>
    by_cases hk : kv.1 = k
    · have hk2 : (k == k') = false := by
        simp
        exact fun he => h he.symm
      simp [List.filter_cons, List.find?_cons, hk, hk2, ih]
    · by_cases hsel : kv.1 = k'
      · simp [List.filter_cons, List.find?_cons, hk, hsel, h]
      · simp [List.filter_cons, List.find?_cons, hk, hsel, ih]

theorem getItem_setItem_diff (store : Store) (k k' v : String) (h : k' ≠ k) :
    getItem (setItem store k v) k' = getItem store k' := by
  have hk : (k == k') = false := by
    simp
    exact fun he => h he.symm
  simp [getItem, setItem, List.find?_cons, hk, find?_filter_ne store k k' h]

theorem map_decodeNote_map_encodeNote (ns : List Note) :
    (ns.map encodeNote).map decodeNote = ns.map some := by
  induction ns with
  | nil => rfl
  | cons n rest ih => simp [decodeNote_encodeNote, ih]

/-! ## Claim theorems -/

/-- C5: `createNote` called with its default argument returns a note whose
title is "Untitled note", whose content is empty, whose `createdAt` and
`updatedAt` both equal the creation instant `now`, and whose id is the
freshly generated one. -/
theorem createNote_default_fields (now : Nat) (newId : String) :
    (createNote now newId).title = "Untitled note" ∧
    (createNote now newId).content = "" ∧
    (createNote now newId).createdAt = now ∧
    (createNote now newId).updatedAt = now ∧
    (createNote now newId).createdAt = (createNote now newId).updatedAt ∧
    (createNote now newId).id = newId :=
  ⟨rfl, rfl, rfl, rfl, rfl, rfl⟩

/-- C8: the search action changes only the `query` field of the application
state; the collection, the selection and the persistent store are untouched. -/
theorem search_mutates_query_only (st : AppState) (v : String) :
    (handleSearchInput st v).query = v ∧
    (handleSearchInput st v).notes = st.notes ∧
    (handleSearchInput st v).selectedId = st.selectedId ∧
    (handleSearchInput st v).isEditingTitle = st.isEditingTitle ∧
    (handleSearchInput st v).store = st.store :=
  ⟨rfl, rfl, rfl, rfl, rfl⟩

/-- C7: Delete leaves the whole state (collection, selection, query and
store alike) unchanged when no note matches the selected id, and also when
the confirmation prompt is declined. -/
theorem delete_noop_cases (st : AppState) (confirmed : Bool)
    (h : (∀ n ∈ st.notes, ¬ some n.id = st.selectedId) ∨ confirmed = false) :
    handleDelete st confirmed = st := by
  rcases h with h | h
  · have hany : st.notes.any (isSelected st.selectedId) = false := by
      rw [List.any_eq_false]
      intro n hn
      simp [isSelected]
      exact h n hn
    simp [handleDelete, hany]
  · subst h
    unfold handleDelete
    split <;> rfl

/-- Witness for C7: deleting with a dangling selected id is a no-op. -/
theorem delete_noop_cases_witness :
    handleDelete ⟨[⟨"a", "t", "c", 0, 0⟩], some "z", "", false, []⟩ true
      = ⟨[⟨"a", "t", "c", 0, 0⟩], some "z", "", false, []⟩ :=
  delete_noop_cases _ _ (Or.inl (by decide))

/-- C10: at startup, when storage holds no selection (key absent or empty)
and the loaded collection is non-empty, the first note in stored array order
becomes selected and that selection is persisted under `SELECTED_KEY`; when
the collection is empty the state is left with no selection and the store is
not written. -/
theorem startup_selects_first_when_none (loadedNotes : List Note) (store : Store)
    (h : loadSelectedId store = none) :
    (loadedNotes = [] → startup loadedNotes store
        = { notes := [], selectedId := none, query := "", isEditingTitle := false,
            store := store }) ∧
    (∀ n rest, loadedNotes = n :: rest →
       (startup loadedNotes store).selectedId = some n.id ∧
       (startup loadedNotes store).notes = loadedNotes ∧
       getItem (startup loadedNotes store).store SELECTED_KEY = some n.id) := by
  constructor
  · intro he; subst he; simp [startup, h]
  · intro n rest he; subst he
    refine ⟨?_, ?_, ?_⟩ <;> simp [startup, h, saveSelectedId, getItem_setItem_same]

/-- Witness for C10: one loaded note, empty storage. -/
theorem startup_selects_first_when_none_witness :
    (startup [⟨"a", "t", "c", 0, 0⟩] []).selectedId = some "a" ∧
    getItem (startup [⟨"a", "t", "c", 0, 0⟩] []).store SELECTED_KEY = some "a" :=
  ⟨((startup_selects_first_when_none _ _ (by decide)).2 _ _ rfl).1,
   ((startup_selects_first_when_none _ _ (by decide)).2 _ _ rfl).2.2⟩

/-- C3: `loadNotes` is total (the thrown parse error is caught inside) and
returns the empty collection when the key is absent, when the payload fails
to parse, or when the parsed value is not an array; otherwise it returns the
parsed array.  `parse` is any model of `JSON.parse`, constrained only to
reject the empty string, which `JSON.parse` does. -/
theorem loadNotes_total_cases (parse : String → Option JVal) (store : Store)
    (hempty : parse "" = none) :
    (getItem store STORAGE_KEY = none → loadNotes parse store = []) ∧
    (∀ raw, getItem store STORAGE_KEY = some raw → parse raw = none →
       loadNotes parse store = []) ∧
    (∀ raw v, getItem store STORAGE_KEY = some raw → parse raw = some v →
       (∀ elems, v ≠ JVal.arr elems) → loadNotes parse store = []) ∧
    (∀ raw elems, getItem store STORAGE_KEY = some raw →
       parse raw = some (JVal.arr elems) → loadNotes parse store = elems) := by
  have hne : ∀ raw v, parse raw = some v → ¬ raw = "" := by
    intro raw v hp he
    subst he
    rw [hempty] at hp
    exact Option.noConfusion hp
  refine ⟨fun h => by simp [loadNotes, h], ?_, ?_, ?_⟩
  · intro raw h hp
    by_cases hraw : raw = ""
    · simp [loadNotes, h, hraw]
    · simp [loadNotes, h, hraw, hp]
  · intro raw v h hp hv
    have hraw := hne raw v hp
    cases v with
    | arr elems => exact absurd rfl (hv elems)
    | null => simp [loadNotes, h, hraw, hp]
    | bool b => simp [loadNotes, h, hraw, hp]
    | num m => simp [loadNotes, h, hraw, hp]
    | str s => simp [loadNotes, h, hraw, hp]
    | obj fields => simp [loadNotes, h, hraw, hp]
  · intro raw elems h hp
    have hraw := hne raw _ hp
    simp [loadNotes, h, hraw, hp]

/-- Witness for C3: a stored payload `[3]` loads as a one-element array,
with the concrete parser standing in for `JSON.parse`. -/
theorem loadNotes_total_cases_witness :
    loadNotes jParse [(STORAGE_KEY, "[3]")] = [JVal.num 3] :=
  (loadNotes_total_cases jParse _ rfl).2.2.2 "[3]" [JVal.num 3] rfl rfl

/-- C4: round-trip — saving a well-formed collection and then loading returns
the same collection, read back element by element.  `stringify` / `parse`
model the platform's `JSON.stringify` / `JSON.parse`; the hypotheses are
exactly the platform guarantees on the encoded value: a non-empty
serialization that parses back to the same JSON value. -/
theorem saveNotes_loadNotes_roundtrip (stringify : JVal → String)
    (parse : String → Option JVal) (ns : List Note) (store : Store)
    (hne : stringify (encodeNotes ns) ≠ "")
    (hrt : parse (stringify (encodeNotes ns)) = some (encodeNotes ns)) :
    loadNotes parse (saveNotes stringify store ns) = ns.map encodeNote ∧
    (loadNotes parse (saveNotes stringify store ns)).map decodeNote = ns.map some := by
  have h2 : loadNotes parse (saveNotes stringify store ns) = ns.map encodeNote := by
    have h1 : getItem (saveNotes stringify store ns) STORAGE_KEY
        = some (stringify (JVal.arr (ns.map encodeNote))) :=
      getItem_setItem_same store STORAGE_KEY _
    have hne2 : stringify (JVal.arr (ns.map encodeNote)) ≠ "" := hne
    have hrt2 : parse (stringify (JVal.arr (ns.map encodeNote)))
        = some (JVal.arr (ns.map encodeNote)) := hrt
    simp [loadNotes, h1, hne2, hrt2]
  exact ⟨h2, by rw [h2]; exact map_decodeNote_map_encodeNote ns⟩

/-- Witness for C4: the concrete printer and parser on a one-note collection. -/
theorem saveNotes_loadNotes_roundtrip_witness :
    loadNotes jParse (saveNotes jToString [] [⟨"n1", "Groceries", "milk, eggs", 11, 12⟩])
      = [encodeNote ⟨"n1", "Groceries", "milk, eggs", 11, 12⟩] ∧
    (loadNotes jParse
        (saveNotes jToString [] [⟨"n1", "Groceries", "milk, eggs", 11, 12⟩])).map decodeNote
      = [some ⟨"n1", "Groceries", "milk, eggs", 11, 12⟩] :=
  saveNotes_loadNotes_roundtrip jToString jParse _ [] (by decide) (by rfl)

theorem replaceFirst_append (p : Note → Bool) (f : Note → Note)
    (pre post : List Note) (old : Note)
    (hpre : ∀ n ∈ pre, ¬ p n) (hold : p old) :
    replaceFirst p f (pre ++ old :: post) = pre ++ f old :: post := by
  induction pre with
  | nil => simp [replaceFirst, hold]
  | cons a rest ih =>
    have ha : ¬ p a := hpre a (List.mem_cons_self a rest)
    have htail := ih (fun n hn => hpre n (List.mem_cons_of_mem a hn))
    simp only [List.cons_append, replaceFirst, if_neg ha]
    exact congrArg (List.cons a) htail

theorem removeFirst_append (p : Note → Bool)
    (pre post : List Note) (victim : Note)
    (hpre : ∀ n ∈ pre, ¬ p n) (hvict : p victim) :
    removeFirst p (pre ++ victim :: post) = pre ++ post := by
  induction pre with
  | nil => simp [removeFirst, hvict]
  | cons a rest ih =>
    have ha : ¬ p a := hpre a (List.mem_cons_self a rest)
    have htail := ih (fun n hn => hpre n (List.mem_cons_of_mem a hn))
    simp only [List.cons_append, removeFirst, if_neg ha]
    exact congrArg (List.cons a) htail

/-- C6: when a note matches the selected id, Update merges the patch into
that note (first match in the collection), stamps `updatedAt := now`,
preserves its `id` and `createdAt`, does not decrease `updatedAt` (given a
non-regressing clock), leaves every other note and the selection untouched,
and persists the new collection. -/
theorem update_selected_spec (st : AppState) (patch : Patch) (now : Nat)
    (pre post : List Note) (old : Note)
    (hnotes : st.notes = pre ++ old :: post)
    (hpre : ∀ n ∈ pre, ¬ isSelected st.selectedId n)
    (hold : isSelected st.selectedId old)
    (hmono : old.updatedAt ≤ now) :
    (updateSelectedNote st patch now).notes = pre ++ applyPatch old patch now :: post ∧
    (applyPatch old patch now).id = old.id ∧
    (applyPatch old patch now).createdAt = old.createdAt ∧
    (applyPatch old patch now).updatedAt = now ∧
    old.updatedAt ≤ (applyPatch old patch now).updatedAt ∧
    (applyPatch old patch now).title = patch.title.getD old.title ∧
    (applyPatch old patch now).content = patch.content.getD old.content ∧
    (updateSelectedNote st patch now).selectedId = st.selectedId ∧
    (updateSelectedNote st patch now).query = st.query ∧
    getItem (updateSelectedNote st patch now).store STORAGE_KEY
      = some (jToString (encodeNotes (pre ++ applyPatch old patch now :: post))) := by
  have hany : st.notes.any (isSelected st.selectedId) = true := by
    rw [hnotes]
    exact List.any_eq_true.mpr ⟨old, by simp, hold⟩
  have hrep : replaceFirst (isSelected st.selectedId) (fun n => applyPatch n patch now) st.notes
      = pre ++ applyPatch old patch now :: post := by
    rw [hnotes]
    exact replaceFirst_append _ _ pre post old hpre hold
  refine ⟨?_, rfl, rfl, rfl, hmono, rfl, rfl, ?_, ?_, ?_⟩
  · simp [updateSelectedNote, hany, hrep]
  · simp [updateSelectedNote, hany]
  · simp [updateSelectedNote, hany]
  · simp [updateSelectedNote, hany, hrep, saveNotes, getItem_setItem_same]

/-- Witness for C6: patching the title of the selected second note. -/
theorem update_selected_spec_witness :
    (updateSelectedNote
        ⟨[⟨"a", "t1", "c1", 0, 5⟩, ⟨"b", "t2", "c2", 1, 3⟩], some "b", "", false, []⟩
        { title := some "T" } 7).notes
      = [⟨"a", "t1", "c1", 0, 5⟩, ⟨"b", "T", "c2", 1, 7⟩] ∧
    (updateSelectedNote
        ⟨[⟨"a", "t1", "c1", 0, 5⟩, ⟨"b", "t2", "c2", 1, 3⟩], some "b", "", false, []⟩
        { title := some "T" } 7).selectedId = some "b" :=
  ⟨(update_selected_spec _ _ 7 [⟨"a", "t1", "c1", 0, 5⟩] [] ⟨"b", "t2", "c2", 1, 3⟩
      rfl (by decide) (by decide) (by decide)).1,
   (update_selected_spec _ _ 7 [⟨"a", "t1", "c1", 0, 5⟩] [] ⟨"b", "t2", "c2", 1, 3⟩
      rfl (by decide) (by decide) (by decide)).2.2.2.2.2.2.2.1⟩

theorem handleDelete_confirmed_eq (st : AppState)
    (hany : st.notes.any (isSelected st.selectedId) = true) :
    handleDelete st true =
      { st with
        notes := removeFirst (isSelected st.selectedId) st.notes
        selectedId := ((removeFirst (isSelected st.selectedId) st.notes).head?).map Note.id
        store := saveSelectedId
          (saveNotes jToString st.store (removeFirst (isSelected st.selectedId) st.notes))
          (((removeFirst (isSelected st.selectedId) st.notes).head?).map Note.id) } := by
  simp only [handleDelete, hany, if_true]
  cases hr : removeFirst (isSelected st.selectedId) st.notes with
  | nil => simp [hr]
  | cons n rest => simp [hr]

/-- C2 (amended): after a confirmed delete of a selected note present in the
collection, that note is removed, the head of the remaining collection in
stored array order becomes selected — or the selection is cleared when no
note remains — and both the collection and the selection are persisted;
deleting the only remaining note leaves the collection empty with no
selection. -/
theorem delete_confirmed_spec (st : AppState) (pre post : List Note) (victim : Note)
    (hnotes : st.notes = pre ++ victim :: post)
    (hpre : ∀ n ∈ pre, ¬ isSelected st.selectedId n)
    (hvict : isSelected st.selectedId victim) :
    (handleDelete st true).notes = pre ++ post ∧
    (handleDelete st true).selectedId = ((pre ++ post).head?).map Note.id ∧
    (handleDelete st true).query = st.query ∧
    getItem (handleDelete st true).store STORAGE_KEY
      = some (jToString (encodeNotes (pre ++ post))) ∧
    getItem (handleDelete st true).store SELECTED_KEY
      = some ((((pre ++ post).head?).map Note.id).getD "") ∧
    (pre = [] → post = [] →
      (handleDelete st true).notes = [] ∧ (handleDelete st true).selectedId = none) := by
  have hany : st.notes.any (isSelected st.selectedId) = true := by
    rw [hnotes]
    exact List.any_eq_true.mpr ⟨victim, by simp, hvict⟩
  have hrem : removeFirst (isSelected st.selectedId) st.notes = pre ++ post := by
    rw [hnotes]
    exact removeFirst_append _ pre post victim hpre hvict
  have hkeys : STORAGE_KEY ≠ SELECTED_KEY := by decide
  rw [handleDelete_confirmed_eq st hany, hrem]
  refine ⟨rfl, rfl, rfl, ?_, ?_, ?_⟩
  · simp [saveSelectedId, saveNotes,
      getItem_setItem_diff _ SELECTED_KEY STORAGE_KEY _ hkeys, getItem_setItem_same]
  · simp [saveSelectedId, saveNotes, getItem_setItem_same]
  · intro h1 h2
    subst h1
    subst h2
    exact ⟨rfl, rfl⟩

/-- Witness for C2: deleting the only remaining note empties the collection
and clears the selection. -/
theorem delete_confirmed_spec_witness :
    (handleDelete ⟨[⟨"a", "t", "c", 0, 0⟩], some "a", "", false, []⟩ true).notes = [] ∧
    (handleDelete ⟨[⟨"a", "t", "c", 0, 0⟩], some "a", "", false, []⟩ true).selectedId = none :=
  (delete_confirmed_spec _ [] [] ⟨"a", "t", "c", 0, 0⟩ rfl (by decide) (by decide)).2.2.2.2.2
    rfl rfl

/-- Counterexample for C2 as stated: in the reachable state `stC2` (three
added notes, the oldest then edited so its `updatedAt` is the largest, the
newest selected), a confirmed delete selects the head of the remaining
stored array, note "b", whereas the first note in `updatedAt`-descending
sort order — the head of `getFilteredNotes` — is note "a". -/
theorem delete_does_not_select_sort_order_head :
    (handleDelete stC2 true).selectedId = some "b" ∧
    ((getFilteredNotes (handleDelete stC2 true).notes "").head?).map Note.id = some "a" ∧
    ¬ ((handleDelete stC2 true).selectedId
        = ((getFilteredNotes (handleDelete stC2 true).notes "").head?).map Note.id) := by
  refine ⟨by decide, by decide, by decide⟩

theorem cmpNotes_total (a b : Note) : cmpNotes a b = true ∨ cmpNotes b a = true := by
  simp [cmpNotes]
  omega

theorem cmpNotes_trans (a b c : Note) (h1 : cmpNotes a b = true) (h2 : cmpNotes b c = true) :
    cmpNotes a c = true := by
  simp [cmpNotes] at *
  omega

theorem mem_insertNote (x b : Note) (l : List Note) :
    b ∈ insertNote x l ↔ b = x ∨ b ∈ l := by
  induction l with
  | nil => simp [insertNote]
  | cons m ms ih =>
    by_cases h : cmpNotes x m
    · simp [insertNote, h]
    · simp [insertNote, h, ih]
      tauto

theorem insertNote_perm (x : Note) (l : List Note) : List.Perm (insertNote x l) (x :: l) := by
  induction l with
  | nil => exact List.Perm.refl _
  | cons m ms ih =>
    by_cases h : cmpNotes x m
    · simp only [insertNote, if_pos h]
      exact List.Perm.refl _
    · have h1 : insertNote x (m :: ms) = m :: insertNote x ms := by
        simp only [insertNote, if_neg h]
      rw [h1]
      exact (ih.cons m).trans (List.Perm.swap x m ms)

theorem sortNotes_perm (l : List Note) : List.Perm (sortNotes l) l := by
  induction l with
  | nil => exact List.Perm.refl _
  | cons x xs ih => exact (insertNote_perm x (sortNotes xs)).trans (ih.cons x)

theorem sorted_insertNote (x : Note) (l : List Note)
    (h : l.Pairwise (fun a b => cmpNotes a b = true)) :
    (insertNote x l).Pairwise (fun a b => cmpNotes a b = true) := by
  induction l with
  | nil => simp [insertNote]
  | cons m ms ih =>
    rcases List.pairwise_cons.mp h with ⟨hm, hms⟩
    by_cases hc : cmpNotes x m
    · simp only [insertNote, if_pos hc]
      refine List.pairwise_cons.mpr ⟨?_, h⟩
      intro b hb
      rcases List.mem_cons.mp hb with rfl | hb
      · exact hc
      · exact cmpNotes_trans x m b hc (hm b hb)
    · simp only [insertNote, if_neg hc]
      refine List.pairwise_cons.mpr ⟨?_, ih hms⟩
      intro b hb
      rcases (mem_insertNote x b ms).mp hb with heq | hb
      · rw [heq]
        exact (cmpNotes_total x m).resolve_left hc
      · exact hm b hb

theorem sorted_sortNotes (l : List Note) :
    (sortNotes l).Pairwise (fun a b => cmpNotes a b = true) := by
  induction l with
  | nil => simp [sortNotes]
  | cons x xs ih => exact sorted_insertNote x (sortNotes xs) ih

theorem filter_insertNote_tied (p : Note → Bool) (x : Note)
    (hp : ∀ a b, p a = true → p b = true → cmpNotes a b = true) (l : List Note) :
    (insertNote x l).filter p = (x :: l).filter p := by
  induction l with
  | nil => rfl
  | cons m ms ih =>
    by_cases hc : cmpNotes x m
    · simp only [insertNote, if_pos hc]
    · simp only [insertNote, if_neg hc]
      by_cases hpx : p x
      · by_cases hpm : p m
        · exact absurd (hp x m hpx hpm) hc
        · simp [List.filter_cons, hpm, hpx, ih]
      · by_cases hpm : p m
        · simp [List.filter_cons, hpm, hpx, ih]
        · simp [List.filter_cons, hpm, hpx, ih]

theorem filter_sortNotes_tied (p : Note → Bool)
    (hp : ∀ a b, p a = true → p b = true → cmpNotes a b = true) (l : List Note) :
    (sortNotes l).filter p = l.filter p := by
  induction l with
  | nil => rfl
  | cons x xs ih =>
    calc (sortNotes (x :: xs)).filter p = (x :: sortNotes xs).filter p :=
        filter_insertNote_tied p x hp (sortNotes xs)
      _ = (x :: xs).filter p := by simp [List.filter_cons, ih]

/-- C1: `getFilteredNotes` returns the notes sorted by `updatedAt`
descending; ties are broken stably (for each key value, filtering the output
on that key returns exactly the retained input notes with that key, in input
order); it retains exactly the notes whose title or content contains the
trimmed, case-folded query, and the whole collection when that query is
empty. -/
theorem getFilteredNotes_spec (notes : List Note) (query : String) :
    (getFilteredNotes notes query).Pairwise (fun a b => b.updatedAt ≤ a.updatedAt) ∧
    (getFilteredNotes notes query).Perm
      (if sToLower (sTrim query) = "" then notes
       else notes.filter (noteMatches (sToLower (sTrim query)))) ∧
    (∀ n, n ∈ getFilteredNotes notes query ↔
       (n ∈ notes ∧ (sToLower (sTrim query) = "" ∨
          noteMatches (sToLower (sTrim query)) n = true))) ∧
    (∀ k : Nat, (getFilteredNotes notes query).filter (fun n => n.updatedAt == k)
        = (if sToLower (sTrim query) = "" then notes
           else notes.filter (noteMatches (sToLower (sTrim query)))).filter
            (fun n => n.updatedAt == k)) := by
  have himp : ∀ l : List Note, l.Pairwise (fun a b => cmpNotes a b = true) →
      l.Pairwise (fun a b => b.updatedAt ≤ a.updatedAt) := by
    intro l hl
    exact hl.imp (fun h => by simpa [cmpNotes] using h)
  have hkey : ∀ k : Nat, ∀ a b : Note,
      (a.updatedAt == k) = true → (b.updatedAt == k) = true → cmpNotes a b = true := by
    intro k a b ha hb
    have ha2 : a.updatedAt = k := by simpa using ha
    have hb2 : b.updatedAt = k := by simpa using hb
    simp [cmpNotes, ha2, hb2]
  by_cases hq : sToLower (sTrim query) = ""
  · have hval : getFilteredNotes notes query = sortNotes notes := by
      simp [getFilteredNotes, hq]
    rw [hval, if_pos hq]
    refine ⟨himp _ (sorted_sortNotes notes), sortNotes_perm notes, ?_, ?_⟩
    · intro n
      simp [(sortNotes_perm notes).mem_iff, hq]
    · intro k
      exact filter_sortNotes_tied _ (hkey k) notes
  · have hval : getFilteredNotes notes query
        = (sortNotes notes).filter (noteMatches (sToLower (sTrim query))) := by
      simp [getFilteredNotes, hq]
    rw [hval, if_neg hq]
    refine ⟨himp _ ((sorted_sortNotes notes).filter _), (sortNotes_perm notes).filter _, ?_, ?_⟩
    · intro n
      simp [List.mem_filter, (sortNotes_perm notes).mem_iff, hq]
    · intro k
      rw [List.filter_filter, List.filter_filter]
      refine filter_sortNotes_tied _ ?_ notes
      intro a b ha hb
      rw [Bool.and_eq_true] at ha hb
      exact hkey k a b ha.1 hb.1

theorem removeFirst_sublist (p : Note → Bool) (l : List Note) :
    List.Sublist (removeFirst p l) l := by
  induction l with
  | nil => simp [removeFirst]
  | cons a rest ih =>
    by_cases h : p a
    · simp only [removeFirst, if_pos h]
      exact List.sublist_cons_self a rest
    · simp only [removeFirst, if_neg h]
      exact ih.cons₂ a

theorem map_id_replaceFirst (p : Note → Bool) (f : Note → Note)
    (hf : ∀ n, (f n).id = n.id) (l : List Note) :
    (replaceFirst p f l).map Note.id = l.map Note.id := by
  induction l with
  | nil => rfl
  | cons a rest ih =>
    by_cases h : p a
    · simp [replaceFirst, h, hf a]
    · simp [replaceFirst, h, ih]

theorem mem_replaceFirst (p : Note → Bool) (f : Note → Note) (x : Note) (l : List Note)
    (hx : x ∈ replaceFirst p f l) : x ∈ l ∨ ∃ n, n ∈ l ∧ x = f n := by
  induction l with
  | nil => exact absurd hx (by simp [replaceFirst])
  | cons a rest ih =>
    by_cases h : p a
    · rw [replaceFirst, if_pos h] at hx
      rcases List.mem_cons.mp hx with heq | hx
      · exact Or.inr ⟨a, List.mem_cons_self a rest, heq⟩
      · exact Or.inl (List.mem_cons_of_mem a hx)
    · rw [replaceFirst, if_neg h] at hx
      rcases List.mem_cons.mp hx with heq | hx
      · exact Or.inl (heq ▸ List.mem_cons_self a rest)
      · rcases ih hx with h1 | ⟨n, hn, he⟩
        · exact Or.inl (List.mem_cons_of_mem a h1)
        · exact Or.inr ⟨n, List.mem_cons_of_mem a hn, he⟩

theorem step_preserves_inv (st : AppState) (a : Action)
    (hInv : InvNotes st.notes) (hok : ActionOK st a) :
    InvNotes (step st a).notes := by
  cases a with
  | add now newId =>
    have hval : (step st (Action.add now newId)).notes
        = createNote now newId :: st.notes := rfl
    rw [hval]
    refine ⟨?_, ?_⟩
    · refine List.pairwise_cons.mpr ⟨?_, hInv.1⟩
      intro b hb he
      exact hok b hb he.symm
    · intro n hn
      rcases List.mem_cons.mp hn with heq | hn
      · rw [heq]
        exact Nat.le_refl now
      · exact hInv.2 n hn
  | select id => exact hInv
  | search q => exact hInv
  | update patch now =>
    by_cases hany : st.notes.any (isSelected st.selectedId)
    · have hval : (step st (Action.update patch now)).notes
          = replaceFirst (isSelected st.selectedId) (fun n => applyPatch n patch now)
              st.notes := by
        simp [step, updateSelectedNote, hany]
      rw [hval]
      refine ⟨?_, ?_⟩
      · have hmap := map_id_replaceFirst (isSelected st.selectedId)
          (fun n => applyPatch n patch now) (fun n => rfl) st.notes
        have h1 : ((st.notes.map Note.id).Pairwise fun a b => a ≠ b) :=
          List.pairwise_map.mpr hInv.1
        rw [← hmap] at h1
        exact List.pairwise_map.mp h1
      · intro n hn
        rcases mem_replaceFirst _ _ n st.notes hn with h1 | ⟨m, hm, he⟩
        · exact hInv.2 n h1
        · rw [he]
          exact hok m hm
    · have hval : step st (Action.update patch now) = st := by
        simp [step, updateSelectedNote, hany]
      rw [hval]
      exact hInv
  | del confirmed =>
    by_cases hany : st.notes.any (isSelected st.selectedId)
    · cases confirmed with
      | true =>
        have hval : (step st (Action.del true)).notes
            = removeFirst (isSelected st.selectedId) st.notes := by
          simp [step, handleDelete, hany]
        rw [hval]
        have hsub := removeFirst_sublist (isSelected st.selectedId) st.notes
        exact ⟨List.Pairwise.sublist hsub hInv.1, fun n hn => hInv.2 n (hsub.subset hn)⟩
      | false =>
        have hval : step st (Action.del false) = st := by
          simp [step, handleDelete, hany]
        rw [hval]
        exact hInv
    · have hval : step st (Action.del confirmed) = st := by
        simp [step, handleDelete, hany]
      rw [hval]
      exact hInv

theorem run_preserves_inv (acts : List Action) (st : AppState)
    (hInv : InvNotes st.notes) (hok : TraceOK st acts) :
    InvNotes (run st acts).notes := by
  induction acts generalizing st with
  | nil => exact hInv
  | cons a rest ih => exact ih (step st a) (step_preserves_inv st a hInv hok.1) hok.2

theorem startup_notes (loadedNotes : List Note) (store : Store) :
    (startup loadedNotes store).notes = loadedNotes := by
  unfold startup
  split
  · simp_all
  · rfl

/-- C9: every reachable state — startup on a loaded collection satisfying the
data-model invariant, followed by any action sequence — has pairwise-distinct
note ids and `createdAt ≤ updatedAt` for every note, under the platform
guarantees recorded in `TraceOK` (the generated id of each Add is fresh, and
the clock passed to each Update does not run behind any note's creation
time). -/
theorem reachable_state_invariant (loadedNotes : List Note) (store : Store)
    (acts : List Action) (h0 : InvNotes loadedNotes)
    (hok : TraceOK (startup loadedNotes store) acts) :
    InvNotes (run (startup loadedNotes store) acts).notes := by
  refine run_preserves_inv acts _ ?_ hok
  rw [startup_notes]
  exact h0

/-- Witness for C9: an add, an update and a confirmed delete from an empty
start. -/
theorem reachable_state_invariant_witness :
    InvNotes (run (startup [] [])
      [Action.add 1 "a", Action.update { content := some "hello" } 2,
       Action.del true]).notes :=
  reachable_state_invariant [] [] _ ⟨by decide, by decide⟩
    ⟨(by decide : ∀ n ∈ (startup [] []).notes, n.id ≠ "a"),
     (by decide : ∀ n ∈ (step (startup [] [])
          (Action.add 1 "a")).notes, n.createdAt ≤ 2),
     trivial, trivial⟩

end NotesApp
